import Mathlib

/-!
Shallow embedding of the hashcat-style word-mangling rule engine
(`hashcat_rule_gen.py`, `parseOrderedRules.py`).

Python strings are modelled as `List Char` (sequences of code points).
Python exceptions (IndexError, KeyError, TypeError, ValueError) are
modelled by `Option`: `none` means the operation raised.

Python indexing and slicing semantics are reproduced exactly:
`x[i]` raises when the (negative-normalised) index is out of range,
while slices `x[a:b]`, `x[a:]`, `x[:b]` clamp silently.
-/

/-- Python `x[i]` on a string: negative `i` counts from the end; an index
still out of range after normalisation raises `IndexError` (`none`). -/
def pyIdx (x : List Char) (i : Int) : Option Char :=
  let j : Int := if i < 0 then (x.length : Int) + i else i
  if j < 0 then none else x.get? j.toNat

/-- Normalise one bound of a Python slice over a sequence of length `len`:
negative bounds count from the end, and everything clamps into `[0, len]`. -/
def sliceIdx (len : Nat) (i : Int) : Nat :=
  if i < 0 then ((len : Int) + i).toNat else min i.toNat len

/-- Python `x[a:]`. -/
def pySliceFrom (x : List Char) (a : Int) : List Char :=
  x.drop (sliceIdx x.length a)

/-- Python `x[:b]`. -/
def pySliceTo (x : List Char) (b : Int) : List Char :=
  x.take (sliceIdx x.length b)

/-- Python `chr n` (for the code points Lean's `Char` can carry; Python
additionally allows lone surrogates, which no transform reachable from a
parsed rule produces from valid input). `none` models `ValueError`. -/
def pyChr (n : Nat) : Option Char :=
  if h : n.isValidChar then some (Char.ofNatAux n h) else none

/-- Python `chr` fed an `Int` (`ord(c) - 1` can go negative). -/
def pyChrInt (i : Int) : Option Char :=
  if i < 0 then none else pyChr i.toNat

/-- ASCII model of Python `str.swapcase` applied to one character. -/
def pySwapcase (c : Char) : Char :=
  if c.isLower then c.toUpper else if c.isUpper then c.toLower else c

/-- ASCII model of Python `str.capitalize`: first character uppercased,
the rest lowercased; the empty string maps to itself. -/
def pyCapitalize (x : List Char) : List Char :=
  match x with
  | [] => []
  | c :: rest => c.toUpper :: rest.map Char.toLower

/-- Python `x.split(" ")`: split on every single space, keeping empty
segments; the empty string splits to `[""]`. -/
def splitOnSpace : List Char → List (List Char)
  | [] => [[]]
  | c :: rest =>
    if c = ' ' then [] :: splitOnSpace rest
    else
      match splitOnSpace rest with
      | [] => [[c]]
      | s :: ss => (c :: s) :: ss

/-- Python `x * n` on a string. -/
def pyMul (x : List Char) (n : Nat) : List Char :=
  (List.replicate n x).flatten

/-- A decoded rule argument: either a raw character from the rule text or
an integer produced by the base-36 digit table `_i`. -/
inductive Arg where
  | ch (c : Char)
  | num (n : Nat)
deriving DecidableEq, Repr

/-- The digit table `_i`: `'0'..'9' ↦ 0..9`, `'A'..'Z' ↦ 10..35`; any
other key raises `KeyError` (`none`). -/
def _i (c : Char) : Option Nat :=
  if '0' ≤ c ∧ c ≤ '9' then some (c.toNat - '0'.toNat)
  else if 'A' ≤ c ∧ c ≤ 'Z' then some (c.toNat - 'A'.toNat + 10)
  else none

/-- Arity table `num_args_dict`: arity of each opcode (the Python derives this from
each lambda's parameter count minus the subject). `none` models a
`KeyError` on an unknown opcode. -/
def num_args_dict (c : Char) : Option Nat :=
  if c ∈ [':', 'l', 'u', 'c', 'C', 't', 'E', 'r', '{', '}',
          'd', 'f', 'q', '[', ']', 'k', 'K'] then some 0
  else if c ∈ ['T', 'p', 'z', 'Z', 'y', 'Y', 'D', '\'', '@',
               '$', '^', 'L', 'R', '+', '-', '.', ','] then some 1
  else if c ∈ ['O', 'x', 'i', 'o', 's', '*'] then some 2
  else none

/-- Swap helper `star_func(x, y, z)`:
`x[:y]+x[z]+x[y+1:z]+x[y]+x[z+1:] if z > y else x[:z]+x[y]+x[z+1:y]+x[z]+x[y+1:]`.
Character lookups keep Python's left-to-right evaluation order. -/
def star_func (x : List Char) (y z : Nat) : Option (List Char) :=
  if z > y then do
    let cz ← pyIdx x z
    let cy ← pyIdx x y
    some (x.take y ++ [cz] ++ (x.take z).drop (y + 1) ++ [cy] ++ x.drop (z + 1))
  else do
    let cy ← pyIdx x y
    let cz ← pyIdx x z
    some (x.take z ++ [cy] ++ (x.take y).drop (z + 1) ++ [cz] ++ x.drop (y + 1))

/-- The opcode table `hashcat_rule`, as the dispatch
`hashcat_rule[rule_type](x, *args)`.  Each arm mirrors one Python lambda
(quoted in its comment); an unknown opcode or an argument list whose
shape does not fit the lambda raises (`KeyError`/`TypeError`), i.e.
returns `none`.  Nat slice bounds use `List.take`/`List.drop`, which
clamp exactly as Python slices do. -/
def hashcat_rule (rule_type : Char) (x : List Char) (args : List Arg) :
    Option (List Char) :=
  match rule_type, args with
  | ':', [] => some x                                     -- x
  | 'l', [] => some (x.map Char.toLower)                  -- x.lower()
  | 'u', [] => some (x.map Char.toUpper)                  -- x.upper()
  | 'c', [] => some (pyCapitalize x)                      -- x.capitalize()
  | 'C', [] => do                                         -- x[0].lower() + x[1:].upper()
    let c ← pyIdx x 0
    some (c.toLower :: (x.drop 1).map Char.toUpper)
  | 't', [] => some (x.map pySwapcase)                    -- x.swapcase()
  | 'E', [] => do                                         -- " ".join([i[0].upper()+i[1:] for i in x.split(" ")])
    let pieces ← (splitOnSpace x).mapM fun p => do
      let c ← pyIdx p 0
      some (c.toUpper :: p.drop 1)
    some (List.intercalate [' '] pieces)
  | 'T', [.num y] => do                                   -- x[:y] + x[y].swapcase() + x[y+1:]
    let c ← pyIdx x y
    some (x.take y ++ [pySwapcase c] ++ x.drop (y + 1))
  | 'r', [] => some x.reverse                             -- x[::-1]
  | '{', [] => do                                         -- x[1:] + x[0]
    let c ← pyIdx x 0
    some (x.drop 1 ++ [c])
  | '}', [] => do                                         -- x[-1] + x[:-1]
    let c ← pyIdx x (-1)
    some (c :: pySliceTo x (-1))
  | 'd', [] => some (x ++ x)                              -- x + x
  | 'f', [] => some (x ++ x.reverse)                      -- x + x[::-1]
  | 'q', [] => some (x.flatMap fun c => [c, c])           -- "".join([i+i for i in x])
  | 'p', [.num y] => some (pyMul x y)                     -- x * y
  | 'z', [.num y] => do                                   -- x[0]*y + x
    let c ← pyIdx x 0
    some (List.replicate y c ++ x)
  | 'Z', [.num y] => do                                   -- x + x[-1]*y
    let c ← pyIdx x (-1)
    some (x ++ List.replicate y c)
  | 'y', [.num y] => some (x.take y ++ x)                 -- x[:y] + x
  | 'Y', [.num y] => some (x ++ pySliceFrom x (-(y : Int))) -- x + x[-y:]
  | '[', [] => some (x.drop 1)                            -- x[1:]
  | ']', [] => some (pySliceTo x (-1))                    -- x[:-1]
  | 'D', [.num y] => some (x.take y ++ x.drop (y + 1))    -- x[:y] + x[y+1:]
  | '\'', [.num y] => some (x.take y)                     -- x[:y]
  | 'O', [.num y, .num z] => some (x.take y ++ x.drop (y + z)) -- x[:y] + x[y+z:]
  | 'x', [.num y, .num z] => some ((x.drop y).take z)     -- x[y:y+z]
  | '@', [.ch y] => some (x.filter (· ≠ y))               -- x.replace(y, '')
  | '$', [.ch y] => some (x ++ [y])                       -- x + y
  | '^', [.ch y] => some (y :: x)                         -- y + x
  | 'i', [.num y, .ch z] => some (x.take y ++ [z] ++ x.drop y) -- x[:y] + z + x[y:]
  | 'o', [.num y, .ch z] => some (x.take y ++ [z] ++ x.drop (y + 1)) -- x[:y] + z + x[y+1:]
  | 's', [.ch y, .ch z] =>                                -- x.replace(y, z)
    some (x.map fun c => if c = y then z else c)
  | 'L', [.num y] => do                                   -- x[:y] + chr(ord(x[y]) << 1) + x[y+1:]
    let c ← pyIdx x y
    let c' ← pyChr (c.toNat <<< 1)
    some (x.take y ++ [c'] ++ x.drop (y + 1))
  | 'R', [.num y] => do                                   -- x[:y] + chr(ord(x[y]) >> 1) + x[y+1:]
    let c ← pyIdx x y
    let c' ← pyChr (c.toNat >>> 1)
    some (x.take y ++ [c'] ++ x.drop (y + 1))
  | '+', [.num y] => do                                   -- x[:y] + chr(ord(x[y]) + 1) + x[y+1:]
    let c ← pyIdx x y
    let c' ← pyChr (c.toNat + 1)
    some (x.take y ++ [c'] ++ x.drop (y + 1))
  | '-', [.num y] => do                                   -- x[:y] + chr(ord(x[y]) - 1) + x[y+1:]
    let c ← pyIdx x y
    let c' ← pyChrInt ((c.toNat : Int) - 1)
    some (x.take y ++ [c'] ++ x.drop (y + 1))
  | '.', [.num y] => do                                   -- x[:y] + x[y+1] + x[y+1:]
    let c ← pyIdx x ((y : Int) + 1)
    some (x.take y ++ [c] ++ x.drop (y + 1))
  | ',', [.num y] => do                                   -- x[:y] + x[y-1] + x[y+1:]
    let c ← pyIdx x ((y : Int) - 1)
    some (x.take y ++ [c] ++ x.drop (y + 1))
  | 'k', [] => do                                         -- x[1] + x[0] + x[2:]
    let c1 ← pyIdx x 1
    let c0 ← pyIdx x 0
    some (c1 :: c0 :: x.drop 2)
  | 'K', [] => do                                         -- x[:-2] + x[-1] + x[-2]
    let cm1 ← pyIdx x (-1)
    let cm2 ← pyIdx x (-2)
    some (pySliceTo x (-2) ++ [cm1, cm2])
  | '*', [.num y, .num z] => star_func x y z              -- star_func(x, y, z)
  | _, _ => none

/-- A parsed rule: an ordered list of `(rule_type, args)` actions. -/
def Rule : Type := List (Char × List Arg)

instance : DecidableEq Rule := by
  unfold Rule
  infer_instance

/-- Opcodes whose first argument is decoded through `_i`
(`rule_type in ["T", "p", "Z", 'z', 'Y', 'y', 'D', "'", 'x', 'O', 'o',
"L", "R", "+", "-", ".", ",", "*", "i"]`). -/
def decode_fst : List Char :=
  ['T', 'p', 'Z', 'z', 'Y', 'y', 'D', '\'', 'x', 'O',
   'o', 'L', 'R', '+', '-', '.', ',', '*', 'i']

/-- Opcodes whose second argument is decoded through `_i`
(`rule_type in ['x', 'O', '*']`). -/
def decode_snd : List Char := ['x', 'O', '*']

/-- Decoding assignment `args[i] = _i[args[i]]`: decode the argument at index `i` through the
digit table.  A missing index raises `IndexError`, an argument that is
not a digit-table key raises `KeyError`; both are `none`. -/
def setDecoded (args : List Arg) (i : Nat) : Option (List Arg) :=
  match args.get? i with
  | some (Arg.ch c) => (_i c).map fun n => args.set i (Arg.num n)
  | some (Arg.num _) => none
  | none => none

/-- The two decoding assignments of `parse_rule`'s loop body, applied to
the raw argument characters of one action. -/
def decodeArgs (rule_type : Char) (args : List Arg) : Option (List Arg) :=
  match (if rule_type ∈ decode_fst then setDecoded args 0 else some args) with
  | none => none
  | some a => if rule_type ∈ decode_snd then setDecoded a 1 else some a

/-- Parser `parse_rule`: the Python `while rule != ""` loop.  Each step reads
`rule_type = rule[0]`, takes `args = [*rule[1:1+num_args]]` (a clamping
slice), decodes the positional arguments, then continues on
`rule[1+num_args+1:]` — the extra `+1` unconditionally skips one
separator character.  Any raised exception aborts the whole parse
(`none`). -/
def parse_rule : List Char → Option Rule
  | [] => some []
  | rule_type :: rest =>
    match num_args_dict rule_type with
    | none => none
    | some num_args =>
      match decodeArgs rule_type ((rest.take num_args).map Arg.ch) with
      | none => none
      | some args =>
        match parse_rule (rest.drop (num_args + 1)) with
        | none => none
        | some tail => some ((rule_type, args) :: tail)
termination_by l => l.length
decreasing_by
  simp only [List.length_cons, List.length_drop]
  omega

/-- Evaluator `apply_rule`: fold the actions over the password left to right via
`hashcat_rule[rule_type](result, *args)`; a raised exception propagates. -/
def apply_rule (password : List Char) : Rule → Option (List Char)
  | [] => some password
  | (rule_type, args) :: rest =>
    match hashcat_rule rule_type password args with
    | none => none
    | some result => apply_rule result rest

/-- Bulk evaluator `apply_rules`: apply every rule to the original password, collecting
successes in a set; a rule that raises is skipped (`except: pass`). -/
def apply_rules (password : List Char) (rules : List Rule) : Finset (List Char) :=
  rules.foldl
    (fun output r =>
      match apply_rule password r with
      | some s => insert s output
      | none => output)
    ∅

/-- Python `str` on one parsed argument: a character renders as itself, a
decoded integer as its decimal digits. -/
def pyStr : Arg → List Char
  | .ch c => [c]
  | .num n => Nat.toDigits 10 n

/-- Renderer `format_action` (parseOrderedRules.py): opcode character followed by
the `str` of each argument, with no separators. -/
def format_action (a : Char × List Arg) : List Char :=
  a.1 :: (a.2.map pyStr).flatten

/-- Renderer `format_rule`: the actions' renderings joined by single spaces. -/
def format_rule (r : Rule) : List Char :=
  List.intercalate [' '] (r.map format_action)

/-- Shape of one argument slot as the parser leaves it: a decoded slot
holds an integer (bounded by `bound`), a literal slot holds a raw
character. -/
def arg_ok (isNum : Bool) (bound : Nat) : Arg → Bool
  | .num n => isNum && decide (n ≤ bound)
  | .ch _ => !isNum

/-- Shape of one action as the parser produces it: the argument count
equals the opcode's arity and each slot is decoded exactly when the
opcode's decode lists say so.  `bound` restricts the decoded integers
(the parser itself only produces values `≤ 35`). -/
def wf_action (bound : Nat) : Char × List Arg → Bool
  | (t, args) =>
    match num_args_dict t, args with
    | some 0, [] => true
    | some 1, [a] => arg_ok (decide (t ∈ decode_fst)) bound a
    | some 2, [a, b] =>
      arg_ok (decide (t ∈ decode_fst)) bound a &&
        arg_ok (decide (t ∈ decode_snd)) bound b
    | _, _ => false

/-- Every action of the rule is parser-shaped with integers `≤ bound`. -/
def wf_rule (bound : Nat) (r : Rule) : Bool :=
  r.all (wf_action bound)

/-! ## Basic facts about the Python primitives -/

lemma pyIdx_natCast (x : List Char) (y : Nat) : pyIdx x (y : Int) = x.get? y := by
  unfold pyIdx
  have h : ¬((y : Int) < 0) := by omega
  simp [h]

lemma pyIdx_eq_none_iff_natCast (x : List Char) (y : Nat) :
    pyIdx x (y : Int) = none ↔ x.length ≤ y := by
  rw [pyIdx_natCast]
  exact List.get?_eq_none

lemma pyIdx_neg_one (x : List Char) (hx : x ≠ []) :
    pyIdx x (-1) = x.getLast? := by
  unfold pyIdx
  have hlen : 1 ≤ x.length := List.length_pos.mpr hx
  have h0 : ¬((x.length : Int) + (-1) < 0) := by omega
  have h1 : ((x.length : Int) + (-1)).toNat = x.length - 1 := by omega
  simp only [show ((-1 : Int) < 0) = True by simp, if_true, h0, if_false, h1]
  rw [List.getLast?_eq_getElem?]
  simp

lemma pyIdx_nil_neg_one : pyIdx [] (-1) = none := by
  unfold pyIdx
  norm_num

lemma option_bind_some_eq_none {α β : Type} (o : Option α) (f : α → β) :
    (o.bind fun a => some (f a)) = none ↔ o = none := by
  cases o <;> simp

/-! ## Claim C8: the no-op rule -/

/-- Claim C8: applying the single no-op action `':'` to any subject,
including the empty string, returns the subject unchanged. -/
theorem claim_C8 (s : List Char) : apply_rule s [(':', [])] = some s := rfl

/-! ## Claim C9: determinism -/

/-- Claim C9: parsing and single-rule evaluation are deterministic pure
functions — two runs on equal inputs return equal results (the embedding
is a function of the inputs alone; the Python's module-level tables are
never written after initialisation). -/
theorem claim_C9 (t₁ t₂ p₁ p₂ : List Char) (r₁ r₂ : Rule)
    (ht : t₁ = t₂) (hp : p₁ = p₂) (hr : r₁ = r₂) :
    parse_rule t₁ = parse_rule t₂ ∧ apply_rule p₁ r₁ = apply_rule p₂ r₂ := by
  subst ht; subst hp; subst hr
  exact ⟨rfl, rfl⟩

theorem claim_C9_witness :
    parse_rule ['l'] = parse_rule ['l'] ∧
      apply_rule ['a'] [(':', [])] = apply_rule ['a'] [(':', [])] :=
  claim_C9 ['l'] ['l'] ['a'] ['a'] [(':', [])] [(':', [])] rfl rfl rfl

/-! ## Claim C6: positional-swap symmetry -/

/-- Claim C6: for distinct in-bounds positions, `star_func` (opcode `'*'`)
gives the same result whichever order the two positions are given in. -/
theorem claim_C6 (x : List Char) (i j : Nat) (hne : i ≠ j)
    (_hi : i < x.length) (_hj : j < x.length) :
    star_func x i j = star_func x j i := by
  rcases Nat.lt_or_ge i j with h | h
  · unfold star_func
    rw [if_pos (show j > i from h), if_neg (show ¬i > j by omega)]
  · have h' : j < i := by omega
    unfold star_func
    rw [if_neg (show ¬j > i by omega), if_pos (show i > j from h')]

theorem claim_C6_witness :
    star_func ['a', 'b', 'c', 'd', 'e'] 1 3 = star_func ['a', 'b', 'c', 'd', 'e'] 3 1 :=
  claim_C6 ['a', 'b', 'c', 'd', 'e'] 1 3 (by decide) (by decide) (by decide)

/-! ## Claim C7: positional swap with equal indices -/

/-- Claim C7 is false: `'*'` with two equal in-bounds positions is not a
no-op.  At `"abc"` with both positions 1 it duplicates the `'b'`. -/
theorem claim_C7_cex :
    hashcat_rule '*' ['a', 'b', 'c'] [Arg.num 1, Arg.num 1] ≠ some ['a', 'b', 'c'] := by
  decide

/-- Claim C7 amended: `'*'` with two equal in-bounds positions inserts a
second copy of the character at that position (the `else` branch's
`x[:z]+x[y]+x[z+1:y]+x[z]+x[y+1:]` with `y = z = i`), so the result is one
character longer than the subject, not the subject itself. -/
theorem claim_C7_amended (x : List Char) (i : Nat) (h : i < x.length) :
    hashcat_rule '*' x [Arg.num i, Arg.num i] =
      some (x.take i ++ x.get ⟨i, h⟩ :: x.get ⟨i, h⟩ :: x.drop (i + 1)) := by
  have hidx : pyIdx x (i : Int) = some (x.get ⟨i, h⟩) := by
    rw [pyIdx_natCast]; exact List.get?_eq_get h
  show star_func x i i = _
  unfold star_func
  rw [if_neg (lt_irrefl i), hidx]
  have hdrop : (x.take i).drop (i + 1) = [] :=
    List.drop_eq_nil_of_le (by simp [List.length_take])
  simp [hdrop]

theorem claim_C7_amended_witness :
    hashcat_rule '*' ['a', 'b', 'c'] [Arg.num 1, Arg.num 1] =
      some (List.take 1 ['a', 'b', 'c'] ++
        List.get ['a', 'b', 'c'] ⟨1, by decide⟩ ::
          List.get ['a', 'b', 'c'] ⟨1, by decide⟩ :: List.drop (1 + 1) ['a', 'b', 'c']) :=
  claim_C7_amended ['a', 'b', 'c'] 1 (by decide)

/-! ## Claim C1: deletion/extraction/truncation out of range -/

/-- Claim C1 is false: the positional cutting opcodes clamp instead of
erroring.  On the two-character subject `"ab"` with start position 5, all
four return a silently clamped result, never an error. -/
theorem claim_C1_cex :
    hashcat_rule 'D' ['a', 'b'] [Arg.num 5] = some ['a', 'b'] ∧
    hashcat_rule '\'' ['a', 'b'] [Arg.num 5] = some ['a', 'b'] ∧
    hashcat_rule 'x' ['a', 'b'] [Arg.num 5, Arg.num 2] = some [] ∧
    hashcat_rule 'O' ['a', 'b'] [Arg.num 5, Arg.num 2] = some ['a', 'b'] := by
  decide

/-- Claim C1 amended: `'D'`, `'''`, `'x'` and `'O'` are implemented with
pure Python slices, which clamp; with a start position at or past the end
of the subject they always succeed, `'D'`/`'''`/`'O'` returning the
subject unchanged and `'x'` returning the empty string. -/
theorem claim_C1_amended (x : List Char) (y z : Nat) (h : x.length ≤ y) :
    hashcat_rule 'D' x [Arg.num y] = some x ∧
    hashcat_rule '\'' x [Arg.num y] = some x ∧
    hashcat_rule 'O' x [Arg.num y, Arg.num z] = some x ∧
    hashcat_rule 'x' x [Arg.num y, Arg.num z] = some [] := by
  have htake : x.take y = x := List.take_of_length_le h
  have hd1 : x.drop (y + 1) = [] := List.drop_eq_nil_of_le (by omega)
  have hd2 : x.drop (y + z) = [] := List.drop_eq_nil_of_le (by omega)
  have hd3 : x.drop y = [] := List.drop_eq_nil_of_le h
  refine ⟨?_, ?_, ?_, ?_⟩
  · rw [show hashcat_rule 'D' x [Arg.num y] = some (x.take y ++ x.drop (y + 1)) from rfl,
      htake, hd1]
    simp
  · rw [show hashcat_rule '\'' x [Arg.num y] = some (x.take y) from rfl, htake]
  · rw [show hashcat_rule 'O' x [Arg.num y, Arg.num z] = some (x.take y ++ x.drop (y + z))
      from rfl, htake, hd2]
    simp
  · rw [show hashcat_rule 'x' x [Arg.num y, Arg.num z] = some ((x.drop y).take z) from rfl,
      hd3]
    simp

theorem claim_C1_amended_witness :
    hashcat_rule 'D' ['a', 'b'] [Arg.num 7] = some ['a', 'b'] ∧
    hashcat_rule '\'' ['a', 'b'] [Arg.num 7] = some ['a', 'b'] ∧
    hashcat_rule 'O' ['a', 'b'] [Arg.num 7, Arg.num 3] = some ['a', 'b'] ∧
    hashcat_rule 'x' ['a', 'b'] [Arg.num 7, Arg.num 3] = some [] :=
  claim_C1_amended ['a', 'b'] 7 3 (by decide)

/-! ## Claim C4: neighbour-replacement opcodes -/

/-- Claim C4 is false for `','` at position 0: on `"ab"` it does not
error but replaces the first character with the last via Python negative
indexing (`x[-1]`), giving `"bb"`. -/
theorem claim_C4_cex :
    hashcat_rule ',' ['a', 'b'] [Arg.num 0] = some ['b', 'b'] := by
  decide

/-- Claim C4 amended: `'.'` fails exactly when the right neighbour `N+1`
is out of bounds, and `','` with `N ≥ 1` fails exactly when the left
neighbour `N-1` is out of bounds; but `','` at position 0 reads `x[-1]`,
Python's last character, so on a non-empty subject it succeeds and
replaces the first character with the last (it fails only on the empty
subject, where `x[-1]` itself raises). -/
theorem claim_C4_amended (x : List Char) (y : Nat) :
    (hashcat_rule '.' x [Arg.num y] = none ↔ x.length ≤ y + 1) ∧
    (1 ≤ y → (hashcat_rule ',' x [Arg.num y] = none ↔ x.length ≤ y - 1)) ∧
    (x ≠ [] → ∃ c, x.getLast? = some c ∧
      hashcat_rule ',' x [Arg.num 0] = some (c :: x.drop 1)) := by
  refine ⟨?_, ?_, ?_⟩
  · rw [show hashcat_rule '.' x [Arg.num y] =
        (pyIdx x ((y : Int) + 1)).bind (fun c => some (x.take y ++ [c] ++ x.drop (y + 1)))
        from rfl]
    rw [option_bind_some_eq_none]
    rw [show ((y : Int) + 1) = ((y + 1 : Nat) : Int) by push_cast; ring]
    exact pyIdx_eq_none_iff_natCast x (y + 1)
  · intro hy
    rw [show hashcat_rule ',' x [Arg.num y] =
        (pyIdx x ((y : Int) - 1)).bind (fun c => some (x.take y ++ [c] ++ x.drop (y + 1)))
        from rfl]
    rw [option_bind_some_eq_none]
    rw [show ((y : Int) - 1) = ((y - 1 : Nat) : Int) by omega]
    exact pyIdx_eq_none_iff_natCast x (y - 1)
  · intro hx
    obtain ⟨c, hc⟩ : ∃ c, x.getLast? = some c := by
      rcases x with _ | ⟨a, t⟩
      · exact absurd rfl hx
      · exact ⟨_, List.getLast?_eq_getLast_of_ne_nil (by simp)⟩
    refine ⟨c, hc, ?_⟩
    rw [show hashcat_rule ',' x [Arg.num 0] =
        (pyIdx x (((0 : Nat) : Int) - 1)).bind
          (fun d => some (x.take 0 ++ [d] ++ x.drop (0 + 1)))
        from rfl]
    rw [show (((0 : Nat) : Int) - 1) = (-1 : Int) by norm_num]
    rw [pyIdx_neg_one x hx, hc]
    simp

theorem claim_C4_amended_witness :
    (hashcat_rule ',' ['a', 'b', 'c'] [Arg.num 2] = none ↔ (3 : Nat) ≤ 1) ∧
    (∃ c, List.getLast? ['a', 'b', 'c'] = some c ∧
      hashcat_rule ',' ['a', 'b', 'c'] [Arg.num 0] = some (c :: List.drop 1 ['a', 'b', 'c'])) :=
  ⟨(claim_C4_amended ['a', 'b', 'c'] 2).2.1 (by decide),
   (claim_C4_amended ['a', 'b', 'c'] 0).2.2 (by decide)⟩

/-! ## Unfolding lemmas for the parser -/

lemma parse_rule_nil : parse_rule [] = some [] := by
  rw [parse_rule]

lemma parse_rule_cons (t : Char) (l : List Char) :
    parse_rule (t :: l) =
      match num_args_dict t with
      | none => none
      | some num_args =>
        match decodeArgs t ((l.take num_args).map Arg.ch) with
        | none => none
        | some args =>
          match parse_rule (l.drop (num_args + 1)) with
          | none => none
          | some tail => some ((t, args) :: tail) := by
  rw [parse_rule]

/-! ## Claim C5: bulk application -/

lemma apply_rules_foldl_mem (p : List Char) (rules : List Rule)
    (acc : Finset (List Char)) (s : List Char) :
    s ∈ rules.foldl
        (fun output r =>
          match apply_rule p r with
          | some v => insert v output
          | none => output)
        acc ↔
      s ∈ acc ∨ ∃ r ∈ rules, apply_rule p r = some s := by
  induction rules generalizing acc with
  | nil => simp
  | cons r0 rs ih =>
    rw [List.foldl_cons, ih]
    rcases h0 : apply_rule p r0 with _ | v <;> simp only [h0]
    · constructor
      · rintro (h | ⟨r, hr, he⟩)
        · exact Or.inl h
        · exact Or.inr ⟨r, List.mem_cons_of_mem _ hr, he⟩
      · rintro (h | ⟨r, hr, he⟩)
        · exact Or.inl h
        · rcases List.mem_cons.mp hr with rfl | hr'
          · rw [h0] at he; cases he
          · exact Or.inr ⟨r, hr', he⟩
    · constructor
      · rintro (hs | ⟨r, hr, he⟩)
        · rcases Finset.mem_insert.mp hs with rfl | hs'
          · exact Or.inr ⟨r0, List.mem_cons_self r0 rs, h0⟩
          · exact Or.inl hs'
        · exact Or.inr ⟨r, List.mem_cons_of_mem _ hr, he⟩
      · rintro (hs | ⟨r, hr, he⟩)
        · exact Or.inl (Finset.mem_insert_of_mem hs)
        · rcases List.mem_cons.mp hr with rfl | hr'
          · rw [h0] at he
            exact Or.inl (Finset.mem_insert.mpr (Or.inl (Option.some.inj he).symm))
          · exact Or.inr ⟨r, hr', he⟩

/-- Claim C5: a string is in the output of bulk application exactly when
some rule of the batch, applied to the *original* password, succeeds with
that string — so rules are applied independently (not chained), results
are deduplicated by the set, and a failing rule is skipped without
aborting the batch. -/
theorem claim_C5 (p : List Char) (rules : List Rule) (s : List Char) :
    s ∈ apply_rules p rules ↔ ∃ r ∈ rules, apply_rule p r = some s := by
  unfold apply_rules
  rw [apply_rules_foldl_mem]
  simp

/-! ## Claim C10: the separator character is never checked -/

/-- Claim C10: after an opcode and exactly arity-many argument
characters, the parser drops one character unconditionally
(`rule[1+num_args+1:]`); any character in the separator slot yields the
same parse as a space. -/
theorem claim_C10 (t : Char) (ar : Nat) (cs : List Char) (c d : Char)
    (rest : List Char) (hart : num_args_dict t = some ar)
    (hlen : cs.length = ar) :
    parse_rule (t :: (cs ++ c :: rest)) = parse_rule (t :: (cs ++ d :: rest)) := by
  have hdrop : ∀ e : Char, (cs ++ e :: rest).drop (ar + 1) = rest := by
    intro e
    rw [show cs ++ e :: rest = (cs ++ [e]) ++ rest by simp]
    exact List.drop_left' (by simp [hlen])
  have htake : ∀ e : Char, (cs ++ e :: rest).take ar = cs := fun e =>
    List.take_left' hlen
  rw [parse_rule_cons, parse_rule_cons, hart]
  simp only [htake, hdrop]

theorem claim_C10_witness :
    parse_rule (':' :: ([] ++ 'Z' :: ['u'])) = parse_rule (':' :: ([] ++ ' ' :: ['u'])) :=
  claim_C10 ':' 0 [] 'Z' ' ' ['u'] (by decide) rfl

/-! ## Claim C2: argument underflow -/

lemma arity_of_mem_decode_fst (t : Char) (h : t ∈ decode_fst) :
    num_args_dict t = some 1 ∨ num_args_dict t = some 2 := by
  simp only [decode_fst] at h
  fin_cases h <;> decide

lemma arity_of_mem_decode_snd (t : Char) (h : t ∈ decode_snd) :
    num_args_dict t = some 2 := by
  simp only [decode_snd] at h
  fin_cases h <;> decide

/-- A bare opcode whose first argument would be digit-decoded fails to
parse: `args` is empty, so `args[0] = _i[args[0]]` raises `IndexError`. -/
lemma parse_single_underflow_decoded (t : Char) (ar : Nat)
    (hart : num_args_dict t = some ar) (hmem : t ∈ decode_fst) :
    parse_rule [t] = none := by
  rw [parse_rule_cons, hart]
  simp only [List.take_nil, List.map_nil, decodeArgs, if_pos hmem, setDecoded,
    List.get?_nil]

/-- A bare arity-1 opcode with no digit-decoded slot parses *silently* to
an action with an empty argument list. -/
lemma parse_single_underflow_literal (t : Char)
    (hart : num_args_dict t = some 1) (h1 : t ∉ decode_fst)
    (h2 : t ∉ decode_snd) :
    parse_rule [t] = some [(t, [])] := by
  rw [parse_rule_cons, hart]
  simp only [List.take_nil, List.map_nil, decodeArgs, if_neg h1, if_neg h2,
    List.drop_nil, parse_rule_nil]

/-- Claim C2 is false: the rule text `"$"` ends with the arity-1 opcode
`'$'` and no argument, yet parsing succeeds and yields an action with an
empty argument list — the clamping slice `rule[1:1+num_args]` never
detects the underflow. -/
theorem claim_C2_cex :
    parse_rule ['$'] = some [('$', [])] ∧ num_args_dict '$' = some 1 := by
  constructor
  · exact parse_single_underflow_literal '$' (by decide) (by decide) (by decide)
  · decide

/-- Claim C2 amended: an action with fewer arguments than the opcode's
arity makes `parse` fail only when one of the missing slots is
digit-decoded (the decode assignment raises `IndexError`); an opcode
whose missing trailing arguments are literal slots is appended silently
with a short argument list (e.g. a bare `'$'`, or `'i'` with only its
position argument). -/
theorem claim_C2_amended :
    (∀ t, t ∈ decode_fst → parse_rule [t] = none) ∧
    (∀ t, num_args_dict t = some 1 → t ∉ decode_fst →
      parse_rule [t] = some [(t, [])]) ∧
    parse_rule ['i', '3'] = some [('i', [Arg.num 3])] := by
  refine ⟨?_, ?_, ?_⟩
  · intro t h
    rcases arity_of_mem_decode_fst t h with h1 | h1
    · exact parse_single_underflow_decoded t 1 h1 h
    · exact parse_single_underflow_decoded t 2 h1 h
  · intro t hart h1
    have h2 : t ∉ decode_snd := fun hmem => by
      have h3 := arity_of_mem_decode_snd t hmem
      rw [hart] at h3
      exact absurd h3 (by simp)
    exact parse_single_underflow_literal t hart h1 h2
  · rw [parse_rule_cons]
    simp only [show num_args_dict 'i' = some 2 from by decide,
      List.take_succ_cons, List.take_nil, List.map_cons, List.map_nil,
      show decodeArgs 'i' [Arg.ch '3'] = some [Arg.num 3] from by decide,
      List.drop_succ_cons, List.drop_nil, parse_rule_nil]

theorem claim_C2_amended_witness :
    parse_rule ['T'] = none ∧ parse_rule ['$'] = some [('$', [])] :=
  ⟨claim_C2_amended.1 'T' (by decide),
   claim_C2_amended.2.1 '$' (by decide) (by decide)⟩

/-! ## Claim C3: parse/format round trip -/

lemma digit_single (n : Nat) (h : n ≤ 9) :
    ∃ c, Nat.toDigits 10 n = [c] ∧ _i c = some n := by
  interval_cases n
  · exact ⟨'0', by decide⟩
  · exact ⟨'1', by decide⟩
  · exact ⟨'2', by decide⟩
  · exact ⟨'3', by decide⟩
  · exact ⟨'4', by decide⟩
  · exact ⟨'5', by decide⟩
  · exact ⟨'6', by decide⟩
  · exact ⟨'7', by decide⟩
  · exact ⟨'8', by decide⟩
  · exact ⟨'9', by decide⟩

lemma setDecoded_zero (c : Char) (rest : List Arg) (n : Nat) (h : _i c = some n) :
    setDecoded (Arg.ch c :: rest) 0 = some (Arg.num n :: rest) := by
  simp [setDecoded, h, List.set]

lemma setDecoded_one (a : Arg) (c : Char) (n : Nat) (h : _i c = some n) :
    setDecoded [a, Arg.ch c] 1 = some [a, Arg.num n] := by
  simp [setDecoded, h, List.set]

lemma format_rule_nil : format_rule [] = [] := rfl

lemma format_rule_singleton (a : Char × List Arg) :
    format_rule [a] = format_action a := by
  simp [format_rule, List.intercalate]

lemma format_rule_cons_cons (a b : Char × List Arg) (rs : List (Char × List Arg)) :
    format_rule (a :: b :: rs) = format_action a ++ ' ' :: format_rule (b :: rs) := by
  simp [format_rule, List.intercalate, List.intersperse_cons_cons]

/-- One parser step over a correctly sized, correctly decoding argument
block: the opcode and its `ar` characters are consumed, one further
character is skipped, and parsing continues. -/
lemma parse_action_core (t : Char) (ar : Nat) (fl : List Char) (args : List Arg)
    (hart : num_args_dict t = some ar) (hlen : fl.length = ar)
    (hdec : decodeArgs t (fl.map Arg.ch) = some args) (tl : List Char) :
    parse_rule ((t :: fl) ++ tl) =
      match parse_rule (tl.drop 1) with
      | none => none
      | some tail => some ((t, args) :: tail) := by
  have htake : (fl ++ tl).take ar = fl := List.take_left' hlen
  have hdrop : (fl ++ tl).drop (ar + 1) = tl.drop 1 := by
    rw [← List.drop_drop 1 ar (fl ++ tl), List.drop_left' hlen]
  rw [List.cons_append, parse_rule_cons, hart]
  simp only [htake, hdec, hdrop]

/-- Parsing the rendering of one parser-shaped action (with single-digit
integer arguments) recovers exactly that action and hands the rest of
the text, minus the one skipped separator slot, to the parser. -/
lemma parse_format_action (t : Char) (args : List Arg)
    (hwf : wf_action 9 (t, args) = true) (tl : List Char) :
    parse_rule (format_action (t, args) ++ tl) =
      match parse_rule (tl.drop 1) with
      | none => none
      | some tail => some ((t, args) :: tail) := by
  simp only [wf_action] at hwf
  rcases hart : num_args_dict t with _ | ar
  · rw [hart] at hwf
    rcases args with _ | ⟨a, args⟩ <;> simp at hwf
  · rw [hart] at hwf
    rcases ar with _ | _ | _ | ar
    · -- arity 0
      rcases args with _ | ⟨a, args⟩
      · have hn1 : t ∉ decode_fst := fun hm => by
          rcases arity_of_mem_decode_fst t hm with h' | h' <;>
            rw [hart] at h' <;> simp at h'
        have hn2 : t ∉ decode_snd := fun hm => by
          have h' := arity_of_mem_decode_snd t hm
          rw [hart] at h'
          simp at h'
        have hdec : decodeArgs t (([] : List Char).map Arg.ch) = some [] := by
          simp only [List.map_nil, decodeArgs, if_neg hn1, if_neg hn2]
        exact parse_action_core t 0 [] [] hart rfl hdec tl
      · simp at hwf
    · -- arity 1
      rcases args with _ | ⟨a, _ | ⟨b, args⟩⟩
      · simp at hwf
      · have hn2 : t ∉ decode_snd := fun hm => by
          have h' := arity_of_mem_decode_snd t hm
          rw [hart] at h'
          simp at h'
        rcases a with c | n
        · have hn1 : t ∉ decode_fst := by simpa [arg_ok] using hwf
          have hdec : decodeArgs t ([c].map Arg.ch) = some [Arg.ch c] := by
            simp only [List.map_cons, List.map_nil, decodeArgs, if_neg hn1, if_neg hn2]
          exact parse_action_core t 1 [c] [Arg.ch c] hart rfl hdec tl
        · have hmn : t ∈ decode_fst ∧ n ≤ 9 := by simpa [arg_ok] using hwf
          obtain ⟨c, hc1, hc2⟩ := digit_single n hmn.2
          have hdec : decodeArgs t ([c].map Arg.ch) = some [Arg.num n] := by
            simp only [List.map_cons, List.map_nil, decodeArgs, if_pos hmn.1,
              setDecoded_zero c [] n hc2, if_neg hn2]
          have hfa : format_action (t, [Arg.num n]) = t :: [c] := by
            simp [format_action, pyStr, hc1]
          rw [hfa]
          exact parse_action_core t 1 [c] [Arg.num n] hart rfl hdec tl
      · simp at hwf
    · -- arity 2
      rcases args with _ | ⟨a, _ | ⟨b, _ | ⟨a3, args⟩⟩⟩
      · simp at hwf
      · simp at hwf
      · rcases a with c1 | n1 <;> rcases b with c2 | n2
        · -- literal, literal
          have h12 : t ∉ decode_fst ∧ t ∉ decode_snd := by simpa [arg_ok] using hwf
          have hdec : decodeArgs t ([c1, c2].map Arg.ch) = some [Arg.ch c1, Arg.ch c2] := by
            simp only [List.map_cons, List.map_nil, decodeArgs, if_neg h12.1, if_neg h12.2]
          exact parse_action_core t 2 [c1, c2] [Arg.ch c1, Arg.ch c2] hart rfl hdec tl
        · -- literal, decoded
          have h12 : t ∉ decode_fst ∧ t ∈ decode_snd ∧ n2 ≤ 9 := by
            simpa [arg_ok, and_assoc] using hwf
          obtain ⟨c, hc1, hc2⟩ := digit_single n2 h12.2.2
          have hdec : decodeArgs t ([c1, c].map Arg.ch) = some [Arg.ch c1, Arg.num n2] := by
            simp only [List.map_cons, List.map_nil, decodeArgs, if_neg h12.1,
              if_pos h12.2.1, setDecoded_one (Arg.ch c1) c n2 hc2]
          have hfa : format_action (t, [Arg.ch c1, Arg.num n2]) = t :: [c1, c] := by
            simp [format_action, pyStr, hc1]
          rw [hfa]
          exact parse_action_core t 2 [c1, c] [Arg.ch c1, Arg.num n2] hart rfl hdec tl
        · -- decoded, literal
          have h12 : (t ∈ decode_fst ∧ n1 ≤ 9) ∧ t ∉ decode_snd := by
            simpa [arg_ok] using hwf
          obtain ⟨c, hc1, hc2⟩ := digit_single n1 h12.1.2
          have hdec : decodeArgs t ([c, c2].map Arg.ch) = some [Arg.num n1, Arg.ch c2] := by
            simp only [List.map_cons, List.map_nil, decodeArgs, if_pos h12.1.1,
              setDecoded_zero c [Arg.ch c2] n1 hc2, if_neg h12.2]
          have hfa : format_action (t, [Arg.num n1, Arg.ch c2]) = t :: [c, c2] := by
            simp [format_action, pyStr, hc1]
          rw [hfa]
          exact parse_action_core t 2 [c, c2] [Arg.num n1, Arg.ch c2] hart rfl hdec tl
        · -- decoded, decoded
          have h12 : (t ∈ decode_fst ∧ n1 ≤ 9) ∧ t ∈ decode_snd ∧ n2 ≤ 9 := by
            simpa [arg_ok, and_assoc] using hwf
          obtain ⟨c, hc1, hc2⟩ := digit_single n1 h12.1.2
          obtain ⟨e, he1, he2⟩ := digit_single n2 h12.2.2
          have hdec : decodeArgs t ([c, e].map Arg.ch) = some [Arg.num n1, Arg.num n2] := by
            simp only [List.map_cons, List.map_nil, decodeArgs, if_pos h12.1.1,
              setDecoded_zero c [Arg.ch e] n1 hc2, if_pos h12.2.1,
              setDecoded_one (Arg.num n1) e n2 he2]
          have hfa : format_action (t, [Arg.num n1, Arg.num n2]) = t :: [c, e] := by
            simp [format_action, pyStr, hc1, he1]
          rw [hfa]
          exact parse_action_core t 2 [c, e] [Arg.num n1, Arg.num n2] hart rfl hdec tl
      · simp at hwf
    · -- arity 3 or more: no opcode has it
      simp at hwf

/-- Claim C3 is false as stated: the parser can produce actions whose
integer argument is ≥ 10 (one base-36 character, e.g. `"TA"` decodes to
position 10), but `format` renders such an integer with `str` as two
decimal digits, which re-parse to a different action. -/
theorem claim_C3_cex :
    parse_rule ['T', 'A'] = some [('T', [Arg.num 10])] ∧
    parse_rule (format_rule [('T', [Arg.num 10])]) ≠ some [('T', [Arg.num 10])] := by
  have h1 : parse_rule ['T', 'A'] = some [('T', [Arg.num 10])] := by
    have h := parse_action_core 'T' 1 ['A'] [Arg.num 10] (by decide) rfl (by decide) []
    rw [List.append_nil] at h
    rw [h]
    simp [parse_rule_nil]
  have h2 : format_rule [('T', [Arg.num 10])] = ['T', '1', '0'] := by
    rw [format_rule_singleton]
    simp [format_action, pyStr, show Nat.toDigits 10 10 = ['1', '0'] from by decide]
  have h3 : parse_rule ['T', '1', '0'] = some [('T', [Arg.num 1])] := by
    have h := parse_action_core 'T' 1 ['1'] [Arg.num 1] (by decide) rfl (by decide) ['0']
    simp only [List.cons_append, List.nil_append] at h
    rw [h]
    simp [parse_rule_nil]
  refine ⟨h1, ?_⟩
  rw [h2, h3]
  simp

/-- Claim C3 amended: the round trip `parse (format r) = r` holds for
every parser-shaped rule all of whose decoded integer arguments are at
most 9 — i.e. whenever `str` on each integer is a single character, the
exact inverse of the digit-table decoding; an argument ≥ 10 renders as
several digits and breaks the round trip. -/
theorem claim_C3_amended (r : Rule) :
    wf_rule 9 r = true → parse_rule (format_rule r) = some r := by
  induction r with
  | nil =>
    intro _
    rw [format_rule_nil]
    exact parse_rule_nil
  | cons a rest ih =>
    intro hwf
    obtain ⟨t, args⟩ := a
    simp only [wf_rule, List.all_cons, Bool.and_eq_true] at hwf
    obtain ⟨hwa, hwr⟩ := hwf
    rcases rest with _ | ⟨b, rs⟩
    · rw [format_rule_singleton]
      have h := parse_format_action t args hwa []
      rw [List.append_nil] at h
      rw [h]
      simp [parse_rule_nil]
    · rw [format_rule_cons_cons]
      rw [parse_format_action t args hwa (' ' :: format_rule ((b :: rs) : Rule))]
      simp only [List.drop_succ_cons, List.drop_zero]
      rw [ih hwr]

theorem claim_C3_amended_witness :
    parse_rule (format_rule [('T', [Arg.num 3]), ('$', [Arg.ch '1'])]) =
      some [('T', [Arg.num 3]), ('$', [Arg.ch '1'])] :=
  claim_C3_amended [('T', [Arg.num 3]), ('$', [Arg.ch '1'])] (by decide)
